import Mathlib

set_option maxHeartbeats 1000000

/-!
Shallow embedding of `src/react_mc.py`, a PyNuSMV-based checker for reactive
(GR(1)) formulas `GF f -> GF g` over a finite-state model.

Modelling conventions:
* A PyNuSMV `Spec` node is a `SpecTree`: a node type (the parser token held in
  `spec.type`), an identity tag `id` (standing for the node's textual content,
  read only by the external expression evaluator), and `car`/`cdr` children.
  `SpecTree.nil` is Python `None` standing where a child pointer is null;
  reading `.type`/`.car`/`.cdr` of `nil` raises `AttributeError`.
* Python exceptions are made explicit with `Except PyErr`.  `typeError` is the
  `TypeError` raised by unpacking `None` as a tuple, `nameError` the
  `NameError` raised by referencing an unbound local name, `attributeError`
  the `AttributeError` raised by an attribute access on `None`.
  `externalCall` marks the one path where a raw Python `False` produced by
  `check_GF_formula` flows into the PyNuSMV expression evaluator, whose
  behaviour is outside the source under analysis; no theorem depends on it.
  `nonTermination` marks a loop that runs out of its (provably sufficient)
  fuel; it is proved unreachable.
* A BDD over the model's state space is a `Finset α` for a finite type `α` of
  states.  The model's transition relation (`fsm.pre`/`fsm.post`) is a
  boolean-valued relation `tr : α → α → Bool`; the initial-state BDD
  (`fsm.init`) is a `Finset α`.  `pynusmv.mc.eval_simple_expression`
  (wrapped by `spec_to_bdd`) is an abstract evaluator `e : SpecTree → Finset α`.
* The unbounded Python `while` loops are written with an explicit fuel
  argument; `none` is returned exactly when the fuel runs out, and the fuel
  chosen in the top-level definitions is proved sufficient, so `none` never
  actually occurs.
* `print(...)` statements are side-effect-free no-ops and are omitted.
-/

/-- Node types, modelling the parser token constants collected in the Python
`specTypes` dictionary (plus a catch-all for every other parser token). -/
inductive NodeType where
  | LTLSPEC | CONTEXT | IMPLIES | IFF | OR | XOR | XNOR | AND | NOT
  | ATOM | NUMBER | DOT
  | OP_NEXT | OP_GLOBAL | OP_FUTURE | UNTIL
  | EQUAL | NOTEQUAL | LT | GT | LE | GE
  | TRUEEXP | FALSEEXP
  | OTHER (code : Nat)
deriving DecidableEq

/-- A PyNuSMV `Spec` node: `nil` is a null child pointer (Python `None`);
`mk type id car cdr` is a node.  `id` models the node's textual identity
(e.g. which variable an `ATOM` names); the Python functions under analysis
never read it, only the external evaluator does. -/
inductive SpecTree where
  | nil
  | mk (type : NodeType) (id : Nat) (car cdr : SpecTree)
deriving DecidableEq

/-- The Python `basicTypes` set. -/
def basicTypes : List NodeType :=
  [.ATOM, .NUMBER, .TRUEEXP, .FALSEEXP, .DOT,
   .EQUAL, .NOTEQUAL, .LT, .GT, .LE, .GE]

/-- The Python `booleanOp` set. -/
def booleanOp : List NodeType :=
  [.AND, .OR, .XOR, .XNOR, .IMPLIES, .IFF]

/-- Python exceptions and out-of-model markers (see the module comment). -/
inductive PyErr where
  | typeError
  | attributeError
  | nameError
  | externalCall
  | nonTermination
deriving DecidableEq

/-- The dynamically-typed result of `check_GF_formula`: the Python function
returns `False` (wrong `G F` shape), `None` (inner formula not boolean), or
the inner formula itself. -/
inductive GFRes where
  | pyFalse
  | pyNone
  | formula (f : SpecTree)
deriving DecidableEq

/-- `is_boolean_formula(spec)` from `src/react_mc.py`.
Leaf check first (`spec.type in basicTypes`), then `NOT` recursing on `car`,
then binary boolean operators recursing on `car` and (short-circuit `and`)
`cdr`; anything else is `False`.  Called on `nil` (Python `None`) the
attribute access `spec.type` raises `AttributeError`. -/
def is_boolean_formula : SpecTree → Except PyErr Bool
  | .nil => .error .attributeError
  | .mk t _ car cdr =>
    if t ∈ basicTypes then .ok true
    else if t = .NOT then is_boolean_formula car
    else if t ∈ booleanOp then do
      let b ← is_boolean_formula car
      if b then is_boolean_formula cdr else .ok false
    else .ok false

/-- `check_GF_formula(spec)` from `src/react_mc.py`.
Returns Python `False` if the node is not `G _`, then walks to `spec.car`,
returns `False` if that is not `F _`, and finally returns the inner formula
when `is_boolean_formula` accepts it and Python `None` otherwise. -/
def check_GF_formula : SpecTree → Except PyErr GFRes
  | .nil => .error .attributeError
  | .mk t _ car _ =>
    if t ≠ .OP_GLOBAL then .ok .pyFalse
    else
      match car with
      | .nil => .error .attributeError
      | .mk t2 _ car2 _ =>
        if t2 ≠ .OP_FUTURE then .ok .pyFalse
        else do
          let b ← is_boolean_formula car2
          if b then .ok (.formula car2) else .ok .pyNone

/-- `parse_react(spec)` from `src/react_mc.py`.
The result is Python `None` (`Option.none`) or the tuple
`(f_formula, g_formula)`.  Note the guards are written `f_formula == None`
in Python, which is `False` when `f_formula` is the boolean `False` returned
by `check_GF_formula` for a wrong-shaped side, so such a side passes the
guard and ends up inside the returned pair. -/
def parse_react : SpecTree → Except PyErr (Option (GFRes × GFRes))
  | .nil => .error .attributeError
  | .mk t _ _ cdr =>
    if t ≠ .CONTEXT then .ok none
    else
      match cdr with
      | .nil => .error .attributeError
      | .mk t2 _ car2 cdr2 =>
        if t2 ≠ .IMPLIES then .ok none
        else do
          let f ← check_GF_formula car2
          if f = .pyNone then .ok none
          else do
            let g ← check_GF_formula cdr2
            if g = .pyNone then .ok none
            else .ok (some (f, g))

variable {α : Type} [DecidableEq α] [Fintype α]

/-- The model's transition relation as a proposition. -/
def step (tr : α → α → Bool) (a b : α) : Prop := tr a b = true

/-- `fsm.pre(S)`: states with a successor in `S`. -/
def pre (tr : α → α → Bool) (S : Finset α) : Finset α :=
  Finset.univ.filter fun a => ∃ b ∈ S, tr a b = true

/-- `fsm.post(S)`: states with a predecessor in `S`. -/
def post (tr : α → α → Bool) (S : Finset α) : Finset α :=
  Finset.univ.filter fun b => ∃ a ∈ S, tr a b = true

/-- `spec_to_bdd(model, spec)` from `src/react_mc.py`: delegates to the
external PyNuSMV evaluator, modelled by the abstract map `e`. -/
def spec_to_bdd (e : SpecTree → Finset α) (spec : SpecTree) : Finset α := e spec

/-- The inner `while new.isnot_false()` loop of `check_liveness`
(src/react_mc.py lines 177-184), accumulating into `pre_reach` the states
that can reach `recur` in one or more steps and returning early with `true`
as soon as `recur` is entailed by `pre_reach`.  Returns the early-exit flag
together with the final `pre_reach`. -/
def innerLoop (tr : α → α → Bool) (recur : Finset α) :
    Nat → Finset α → Finset α → Option (Bool × Finset α)
  | 0, _, _ => none
  | fuel + 1, preReach, nw =>
    if nw = ∅ then some (false, preReach)
    else
      let preReach2 := preReach ∪ nw
      if recur ⊆ preReach2 then some (true, preReach2)
      else innerLoop tr recur fuel preReach2 (pre tr nw \ preReach2)

/-- The outer `while recur.isnot_false()` loop of `check_liveness`
(src/react_mc.py lines 171-186): run the inner loop from
`pre_reach = BDD.false()`, `new = fsm.pre(recur)`; return `true` on its early
exit, otherwise shrink `recur := recur & pre_reach` and repeat; return
`false` when `recur` is empty. -/
def outerLoop (tr : α → α → Bool) : Nat → Finset α → Option Bool
  | 0, _ => none
  | fuel + 1, recur =>
    if recur = ∅ then some false
    else
      match innerLoop tr recur (Fintype.card α + 1) ∅ (pre tr recur) with
      | none => none
      | some (true, _) => some true
      | some (false, preReach) => outerLoop tr fuel (recur ∩ preReach)

/-- `check_liveness(fsm, reach, spec)` from `src/react_mc.py`:
`recur := reach & spec_to_bdd(fsm, spec)`, then the nested loops above.
The Python result is the constant BDD `BDD.true()`/`BDD.false()`, modelled
as a `Bool`. -/
def check_liveness (tr : α → α → Bool) (e : SpecTree → Finset α)
    (reach : Finset α) (spec : SpecTree) : Option Bool :=
  let bdd_spec := spec_to_bdd e spec
  outerLoop tr (Fintype.card α + 1) (reach ∩ bdd_spec)

/-- The `while new.isnot_false()` loop of `compute_recheability`
(src/react_mc.py lines 159-161): `new := fsm.post(new) - reach;
reach := reach + new`. -/
def reachLoop (tr : α → α → Bool) : Nat → Finset α → Finset α → Option (Finset α)
  | 0, _, _ => none
  | fuel + 1, reach, nw =>
    if nw = ∅ then some reach
    else
      let nw2 := post tr nw \ reach
      reachLoop tr fuel (reach ∪ nw2) nw2

/-- `compute_recheability(fsm)` from `src/react_mc.py`: forward reachability
from `fsm.init`. -/
def compute_recheability (tr : α → α → Bool) (init : Finset α) :
    Option (Finset α) :=
  reachLoop tr (Fintype.card α + 2) init init

/-- `check_persistently(fsm, reach, spec)` from `src/react_mc.py`
(lines 188-204).  If `reach` does not intersect the evaluated formula the
function returns `BDD.false()`.  Otherwise it binds `recur`, `new` and
rebinds `reach`, and then executes `for s in fsm.pick_all_states(pre)`:
the name `pre` is bound nowhere in the Python function or module, so this
line raises `NameError` and the trailing `return` is never reached. -/
def check_persistently (tr : α → α → Bool) (e : SpecTree → Finset α)
    (reach : Finset α) (spec : SpecTree) : Except PyErr Bool :=
  let bdd_spec := spec_to_bdd e spec
  if ¬ (reach ∩ bdd_spec).Nonempty then .ok false
  else
    let recur := reach ∩ bdd_spec
    let nw := pre tr recur
    .error .nameError

/-- `check_react_spec(spec)` from `src/react_mc.py` (lines 130-154).
`get_model_bddFsm()` reads the globally loaded model, modelled by the
explicit parameters `tr` (transition relation) and `init` (initial states);
`e` models the external expression evaluator and `ltl` the truth value
returned by the external `pynusmv.mc.check_explain_ltl_spec(spec)` call in
the final tuple.  Line 136 unpacks `parse_react(spec)` as a tuple, which
raises `TypeError` when the result is `None`; the `if f_formula == None`
guard on line 138 is only reached when the unpacking succeeded.  `~g_formula`
on line 143 builds a `NOT` node over `g_formula`.  The code after the
`return` on line 151 is unreachable. -/
def check_react_spec (tr : α → α → Bool) (init : Finset α)
    (e : SpecTree → Finset α) (ltl : Bool) (t : SpecTree) :
    Except PyErr (Option (Bool × Bool)) := do
  let pr ← parse_react t
  match pr with
  | none => .error .typeError
  | some (fr, gr) =>
    if fr = .pyNone then .ok none
    else
      match compute_recheability tr init with
      | none => .error .nonTermination
      | some reach =>
        match fr, gr with
        | .formula ff, .formula gf =>
          match check_liveness tr e reach ff with
          | none => .error .nonTermination
          | some fl => do
            let gp ← check_persistently tr e reach (.mk .NOT 0 gf .nil)
            .ok (some (!(fl && gp), ltl))
        | _, _ => .error .externalCall

/-! Concrete formula trees and models used for the tests of the claims. -/

/-- The atomic proposition `p`. -/
def atomP : SpecTree := .mk .ATOM 1 .nil .nil

/-- The atomic proposition `q`. -/
def atomQ : SpecTree := .mk .ATOM 2 .nil .nil

/-- The formula `G F p`. -/
def gfP : SpecTree := .mk .OP_GLOBAL 0 (.mk .OP_FUTURE 0 atomP .nil) .nil

/-- The formula `G F q`. -/
def gfQ : SpecTree := .mk .OP_GLOBAL 0 (.mk .OP_FUTURE 0 atomQ .nil) .nil

/-- The formula `p U q`. -/
def untilPQ : SpecTree := .mk .UNTIL 0 atomP atomQ

/-- A context-wrapped `(p U q) -> G F p`: the left side is not a `G F`
formula. -/
def c4Tree : SpecTree := .mk .CONTEXT 0 .nil (.mk .IMPLIES 0 untilPQ gfP)

/-- A context-wrapped `G F p -> G F q`: a genuine reactive formula. -/
def gfTree : SpecTree := .mk .CONTEXT 0 .nil (.mk .IMPLIES 0 gfP gfQ)

/-- The formula `F G p`: wrong shape for `check_GF_formula`. -/
def fgTree : SpecTree := .mk .OP_FUTURE 0 (.mk .OP_GLOBAL 0 atomP .nil) .nil

/-- The formula `G F (G p)`: right shape, non-boolean inner formula. -/
def gfNonBool : SpecTree :=
  .mk .OP_GLOBAL 0 (.mk .OP_FUTURE 0 (.mk .OP_GLOBAL 0 atomP .nil) .nil) .nil

/-- Two states `0 = A`, `1 = B`, fully connected: `A→B`, `B→A`. -/
def trPair : Fin 2 → Fin 2 → Bool := fun a b => a != b

/-- One state with a self loop. -/
def trSelf : Fin 1 → Fin 1 → Bool := fun _ _ => true

/-- Two states: `s0→s1` and a self loop `s1→s1`. -/
def trCyc : Fin 2 → Fin 2 → Bool := fun a b =>
  (a == 0 && b == 1) || (a == 1 && b == 1)

/-- Three states `s0→s1→s2`, `s2` a sink with no outgoing transition. -/
def trAcyc : Fin 3 → Fin 3 → Bool := fun a b =>
  (a == 0 && b == 1) || (a == 1 && b == 2)

/-- Evaluator for the fully-connected pair model: `p` holds on `A = 0`,
`q` on `B = 1`, so `!q` (the `NOT` node built by `check_react_spec`)
holds on `A = 0`. -/
def e8 : SpecTree → Finset (Fin 2) := fun t =>
  if t = atomP then {0} else if t = atomQ then {1}
  else if t = SpecTree.mk .NOT 0 atomQ .nil then {0} else ∅

/-- Evaluator for `trCyc`: `p` holds on the self-loop state `1`. -/
def eCyc : SpecTree → Finset (Fin 2) := fun t => if t = atomP then {1} else ∅

/-- Evaluator for `trAcyc`: `p` holds only on `s0`. -/
def eAcyc : SpecTree → Finset (Fin 3) := fun t => if t = atomP then {0} else ∅

/-- Evaluator for the one-state model: every formula holds on the state. -/
def eSelf : SpecTree → Finset (Fin 1) := fun _ => {0}

/-- Reachability in one or more steps into a target set, for stating what
the inner loop of `check_liveness` computes. -/
def reachesPlus (tr : α → α → Bool) (S : Finset α) (x : α) : Prop :=
  ∃ t ∈ S, Relation.TransGen (step tr) x t

/-- The comparison node types. -/
def cmpTypes : List NodeType := [.EQUAL, .NOTEQUAL, .LT, .GT, .LE, .GE]

/-- Formula trees built only from `ATOM`/`NUMBER`/`DOT`/`TRUEEXP`/`FALSEEXP`
leaves, comparison nodes, `NOT`, and the binary boolean operators.
`is_boolean_formula` treats `DOT` and comparison nodes as leaves without
inspecting their children, so those children are left arbitrary here (a
superset of trees whose comparison children come from the same grammar). -/
inductive BoolComboTree : SpecTree → Prop where
  | atom (i : Nat) : BoolComboTree (.mk .ATOM i .nil .nil)
  | number (i : Nat) : BoolComboTree (.mk .NUMBER i .nil .nil)
  | dot (i : Nat) (a b : SpecTree) : BoolComboTree (.mk .DOT i a b)
  | tru (i : Nat) : BoolComboTree (.mk .TRUEEXP i .nil .nil)
  | fls (i : Nat) : BoolComboTree (.mk .FALSEEXP i .nil .nil)
  | cmp (t : NodeType) (i : Nat) (a b : SpecTree) :
      t ∈ cmpTypes → BoolComboTree (.mk t i a b)
  | notNode (i : Nat) (a : SpecTree) :
      BoolComboTree a → BoolComboTree (.mk .NOT i a .nil)
  | binop (t : NodeType) (i : Nat) (a b : SpecTree) :
      t ∈ booleanOp → BoolComboTree a → BoolComboTree b →
      BoolComboTree (.mk t i a b)

/-! Basic facts about `pre` and `post`. -/

theorem mem_pre {tr : α → α → Bool} {S : Finset α} {a : α} :
    a ∈ pre tr S ↔ ∃ b ∈ S, tr a b = true := by
  simp [pre]

theorem mem_post {tr : α → α → Bool} {S : Finset α} {b : α} :
    b ∈ post tr S ↔ ∃ a ∈ S, tr a b = true := by
  simp [post]

theorem pre_empty (tr : α → α → Bool) : pre tr (∅ : Finset α) = ∅ := by
  ext a; simp [mem_pre]

theorem post_empty (tr : α → α → Bool) : post tr (∅ : Finset α) = ∅ := by
  ext a; simp [mem_post]

theorem pre_union (tr : α → α → Bool) (A B : Finset α) :
    pre tr (A ∪ B) = pre tr A ∪ pre tr B := by
  ext a
  simp only [mem_pre, Finset.mem_union]
  constructor
  · rintro ⟨b, hb | hb, h⟩
    · exact Or.inl ⟨b, hb, h⟩
    · exact Or.inr ⟨b, hb, h⟩
  · rintro (⟨b, hb, h⟩ | ⟨b, hb, h⟩)
    · exact ⟨b, Or.inl hb, h⟩
    · exact ⟨b, Or.inr hb, h⟩

theorem post_union (tr : α → α → Bool) (A B : Finset α) :
    post tr (A ∪ B) = post tr A ∪ post tr B := by
  ext a
  simp only [mem_post, Finset.mem_union]
  constructor
  · rintro ⟨b, hb | hb, h⟩
    · exact Or.inl ⟨b, hb, h⟩
    · exact Or.inr ⟨b, hb, h⟩
  · rintro (⟨b, hb, h⟩ | ⟨b, hb, h⟩)
    · exact ⟨b, Or.inl hb, h⟩
    · exact ⟨b, Or.inr hb, h⟩

theorem reachesPlus_of_mem_pre {tr : α → α → Bool} {S : Finset α} {a : α}
    (h : a ∈ pre tr S) : reachesPlus tr S a := by
  obtain ⟨b, hb, hab⟩ := mem_pre.mp h
  exact ⟨b, hb, Relation.TransGen.single hab⟩

theorem reachesPlus_of_mem_pre_of (tr : α → α → Bool) {S T : Finset α} {a : α}
    (h : a ∈ pre tr T) (hT : ∀ y ∈ T, reachesPlus tr S y) :
    reachesPlus tr S a := by
  obtain ⟨b, hb, hab⟩ := mem_pre.mp h
  obtain ⟨t, ht, htrans⟩ := hT b hb
  exact ⟨t, ht, Relation.TransGen.head hab htrans⟩

theorem mem_of_reachesPlus_closed {tr : α → α → Bool} {recur fin : Finset α}
    {x : α} (h1 : pre tr recur ⊆ fin) (h2 : pre tr fin ⊆ fin)
    (h : reachesPlus tr recur x) : x ∈ fin := by
  obtain ⟨t, ht, htr⟩ := h
  induction htr using Relation.TransGen.head_induction_on with
  | base hstep => exact h1 (mem_pre.mpr ⟨t, ht, hstep⟩)
  | ih hstep _ hmem => exact h2 (mem_pre.mpr ⟨_, hmem, hstep⟩)

/-! Behaviour of the inner loop of `check_liveness`. -/

theorem innerLoop_isSome (tr : α → α → Bool) (recur : Finset α) :
    ∀ (fuel : Nat) (preR nw : Finset α), Disjoint nw preR →
      (Finset.univ \ preR).card < fuel →
      (innerLoop tr recur fuel preR nw).isSome := by
  intro fuel
  induction fuel with
  | zero => intro preR nw _ h; exact absurd h (Nat.not_lt_zero _)
  | succ n ih =>
    intro preR nw hdisj hcard
    simp only [innerLoop]
    by_cases hnw : nw = ∅
    · simp [hnw]
    · rw [if_neg hnw]
      by_cases hsub : recur ⊆ preR ∪ nw
      · simp [hsub]
      · rw [if_neg hsub]
        apply ih
        · exact Finset.sdiff_disjoint
        · obtain ⟨a, ha⟩ := Finset.nonempty_iff_ne_empty.mpr hnw
          have hanotin : a ∉ preR := Finset.disjoint_left.mp hdisj ha
          have hsubset : Finset.univ \ (preR ∪ nw) ⊆ Finset.univ \ preR :=
            Finset.sdiff_subset_sdiff (Finset.Subset.refl _)
              Finset.subset_union_left
          have hss : Finset.univ \ (preR ∪ nw) ⊂ Finset.univ \ preR := by
            refine (Finset.ssubset_iff_of_subset hsubset).mpr
              ⟨a, Finset.mem_sdiff.mpr ⟨Finset.mem_univ a, hanotin⟩, ?_⟩
            simp [Finset.mem_sdiff, ha]
          exact lt_of_lt_of_le (Finset.card_lt_card hss)
            (Nat.lt_succ_iff.mp hcard)

theorem innerLoop_true_subset (tr : α → α → Bool) (recur : Finset α) :
    ∀ (fuel : Nat) (preR nw fin : Finset α),
      innerLoop tr recur fuel preR nw = some (true, fin) → recur ⊆ fin := by
  intro fuel
  induction fuel with
  | zero => intro preR nw fin h; simp [innerLoop] at h
  | succ n ih =>
    intro preR nw fin h
    simp only [innerLoop] at h
    by_cases hnw : nw = ∅
    · simp [hnw] at h
    · rw [if_neg hnw] at h
      by_cases hsub : recur ⊆ preR ∪ nw
      · rw [if_pos hsub] at h
        obtain ⟨-, h2⟩ := Prod.mk.injEq .. ▸ Option.some.injEq .. ▸ h
        exact h2 ▸ hsub
      · rw [if_neg hsub] at h
        exact ih _ _ _ h

theorem innerLoop_reaches (tr : α → α → Bool) (recur : Finset α) :
    ∀ (fuel : Nat) (preR nw fin : Finset α) (b : Bool),
      innerLoop tr recur fuel preR nw = some (b, fin) →
      (∀ x ∈ preR, reachesPlus tr recur x) →
      (∀ x ∈ nw, reachesPlus tr recur x) →
      ∀ x ∈ fin, reachesPlus tr recur x := by
  intro fuel
  induction fuel with
  | zero => intro preR nw fin b h; simp [innerLoop] at h
  | succ n ih =>
    intro preR nw fin b h hpreR hnwR
    have hunion : ∀ x ∈ preR ∪ nw, reachesPlus tr recur x := by
      intro x hx
      rcases Finset.mem_union.mp hx with hx | hx
      · exact hpreR x hx
      · exact hnwR x hx
    simp only [innerLoop] at h
    by_cases hnw : nw = ∅
    · rw [if_pos hnw] at h
      obtain ⟨-, h2⟩ := Prod.mk.injEq .. ▸ Option.some.injEq .. ▸ h
      exact h2 ▸ hpreR
    · rw [if_neg hnw] at h
      by_cases hsub : recur ⊆ preR ∪ nw
      · rw [if_pos hsub] at h
        obtain ⟨-, h2⟩ := Prod.mk.injEq .. ▸ Option.some.injEq .. ▸ h
        exact h2 ▸ hunion
      · rw [if_neg hsub] at h
        refine ih _ _ _ _ h hunion ?_
        intro x hx
        have hx2 : x ∈ pre tr nw := (Finset.mem_sdiff.mp hx).1
        exact reachesPlus_of_mem_pre_of tr hx2 hnwR

theorem innerLoop_false_not_subset (tr : α → α → Bool) (recur : Finset α) :
    ∀ (fuel : Nat) (preR nw fin : Finset α), ¬ recur ⊆ preR →
      innerLoop tr recur fuel preR nw = some (false, fin) →
      ¬ recur ⊆ fin := by
  intro fuel
  induction fuel with
  | zero => intro preR nw fin _ h; simp [innerLoop] at h
  | succ n ih =>
    intro preR nw fin hnsub h
    simp only [innerLoop] at h
    by_cases hnw : nw = ∅
    · rw [if_pos hnw] at h
      obtain ⟨-, h2⟩ := Prod.mk.injEq .. ▸ Option.some.injEq .. ▸ h
      exact h2 ▸ hnsub
    · rw [if_neg hnw] at h
      by_cases hsub : recur ⊆ preR ∪ nw
      · rw [if_pos hsub] at h
        exact absurd (Prod.mk.injEq .. ▸ Option.some.injEq .. ▸ h).1
          (by simp)
      · rw [if_neg hsub] at h
        exact ih _ _ _ hsub h

theorem innerLoop_false_closed (tr : α → α → Bool) (recur : Finset α) :
    ∀ (fuel : Nat) (preR nw fin : Finset α),
      innerLoop tr recur fuel preR nw = some (false, fin) →
      pre tr recur ⊆ preR ∪ nw → pre tr preR ⊆ preR ∪ nw →
      pre tr recur ⊆ fin ∧ pre tr fin ⊆ fin := by
  intro fuel
  induction fuel with
  | zero => intro preR nw fin h; simp [innerLoop] at h
  | succ n ih =>
    intro preR nw fin h hrec hpre
    simp only [innerLoop] at h
    by_cases hnw : nw = ∅
    · rw [if_pos hnw] at h
      obtain ⟨-, h2⟩ := Prod.mk.injEq .. ▸ Option.some.injEq .. ▸ h
      subst h2
      rw [hnw, Finset.union_empty] at hrec hpre
      exact ⟨hrec, hpre⟩
    · rw [if_neg hnw] at h
      by_cases hsub : recur ⊆ preR ∪ nw
      · rw [if_pos hsub] at h
        exact absurd (Prod.mk.injEq .. ▸ Option.some.injEq .. ▸ h).1
          (by simp)
      · rw [if_neg hsub] at h
        have hsplit : pre tr nw ⊆ (preR ∪ nw) ∪ (pre tr nw \ (preR ∪ nw)) := by
          intro x hx
          by_cases hmem : x ∈ preR ∪ nw
          · exact Finset.mem_union_left _ hmem
          · exact Finset.mem_union_right _ (Finset.mem_sdiff.mpr ⟨hx, hmem⟩)
        refine ih _ _ _ h ?_ ?_
        · exact hrec.trans (Finset.subset_union_left)
        · rw [pre_union]
          apply Finset.union_subset
          · exact hpre.trans (Finset.subset_union_left)
          · exact hsplit

/-! Behaviour of the outer loop of `check_liveness`. -/

theorem outerLoop_isSome (tr : α → α → Bool) :
    ∀ (fuel : Nat) (recur : Finset α), recur.card < fuel →
      (outerLoop tr fuel recur).isSome := by
  intro fuel
  induction fuel with
  | zero => intro recur h; exact absurd h (Nat.not_lt_zero _)
  | succ n ih =>
    intro recur hcard
    simp only [outerLoop]
    by_cases hrec : recur = ∅
    · simp [hrec]
    · rw [if_neg hrec]
      have hinner :
          (innerLoop tr recur (Fintype.card α + 1) ∅ (pre tr recur)).isSome := by
        apply innerLoop_isSome
        · exact Finset.disjoint_empty_right _
        · rw [Finset.sdiff_empty, Finset.card_univ]
          exact Nat.lt_succ_self _
      obtain ⟨p, hp⟩ := Option.isSome_iff_exists.mp hinner
      obtain ⟨b, fin⟩ := p
      rw [hp]
      cases b with
      | true => simp
      | false =>
        show (outerLoop tr n (recur ∩ fin)).isSome
        apply ih
        have hnsub : ¬ recur ⊆ fin :=
          innerLoop_false_not_subset tr recur _ _ _ _
            (by simpa [Finset.subset_empty] using hrec) hp
        obtain ⟨x, hxr, hxf⟩ := Finset.not_subset.mp hnsub
        have hss : recur ∩ fin ⊂ recur :=
          (Finset.ssubset_iff_of_subset Finset.inter_subset_left).mpr
            ⟨x, hxr, fun hmem => hxf (Finset.mem_inter.mp hmem).2⟩
        exact lt_of_lt_of_le (Finset.card_lt_card hss) (Nat.lt_succ_iff.mp hcard)

theorem outerLoop_sound (tr : α → α → Bool) :
    ∀ (fuel : Nat) (recur : Finset α), outerLoop tr fuel recur = some true →
      ∃ S : Finset α, S.Nonempty ∧ S ⊆ recur ∧
        ∀ s ∈ S, ∃ t ∈ S, Relation.TransGen (step tr) s t := by
  intro fuel
  induction fuel with
  | zero => intro recur h; simp [outerLoop] at h
  | succ n ih =>
    intro recur h
    simp only [outerLoop] at h
    by_cases hrec : recur = ∅
    · rw [if_pos hrec] at h; simp at h
    · rw [if_neg hrec] at h
      rcases hi : innerLoop tr recur (Fintype.card α + 1) ∅ (pre tr recur)
        with _ | ⟨b, fin⟩
      · rw [hi] at h; simp at h
      · rw [hi] at h
        cases b with
        | true =>
          refine ⟨recur, Finset.nonempty_iff_ne_empty.mpr hrec,
            Finset.Subset.refl _, ?_⟩
          intro s hs
          have hsub : recur ⊆ fin := innerLoop_true_subset tr recur _ _ _ _ hi
          refine innerLoop_reaches tr recur _ _ _ _ _ hi ?_ ?_ s (hsub hs)
          · intro x hx; exact absurd hx (Finset.not_mem_empty x)
          · intro x hx; exact reachesPlus_of_mem_pre hx
        | false =>
          replace h : outerLoop tr n (recur ∩ fin) = some true := h
          obtain ⟨S, hne, hsub, hcyc⟩ := ih _ h
          exact ⟨S, hne, hsub.trans Finset.inter_subset_left, hcyc⟩

theorem outerLoop_complete (tr : α → α → Bool) :
    ∀ (fuel : Nat) (recur S : Finset α), S.Nonempty → S ⊆ recur →
      (∀ s ∈ S, ∃ t ∈ S, Relation.TransGen (step tr) s t) →
      recur.card < fuel → outerLoop tr fuel recur = some true := by
  intro fuel
  induction fuel with
  | zero => intro recur S _ _ _ h; exact absurd h (Nat.not_lt_zero _)
  | succ n ih =>
    intro recur S hSne hSsub hScyc hcard
    have hrec : recur ≠ ∅ := by
      obtain ⟨s, hs⟩ := hSne
      exact Finset.nonempty_iff_ne_empty.mp ⟨s, hSsub hs⟩
    simp only [outerLoop]
    rw [if_neg hrec]
    have hinner :
        (innerLoop tr recur (Fintype.card α + 1) ∅ (pre tr recur)).isSome := by
      apply innerLoop_isSome
      · exact Finset.disjoint_empty_right _
      · rw [Finset.sdiff_empty, Finset.card_univ]
        exact Nat.lt_succ_self _
    obtain ⟨p, hp⟩ := Option.isSome_iff_exists.mp hinner
    obtain ⟨b, fin⟩ := p
    rw [hp]
    cases b with
    | true => rfl
    | false =>
      show outerLoop tr n (recur ∩ fin) = some true
      have hcl : pre tr recur ⊆ fin ∧ pre tr fin ⊆ fin := by
        refine innerLoop_false_closed tr recur _ _ _ _ hp ?_ ?_
        · rw [Finset.empty_union]
        · rw [pre_empty]
          exact Finset.empty_subset _
      have hSfin : S ⊆ recur ∩ fin := by
        intro s hs
        refine Finset.mem_inter.mpr ⟨hSsub hs, ?_⟩
        apply mem_of_reachesPlus_closed hcl.1 hcl.2
        obtain ⟨t, ht, htr⟩ := hScyc s hs
        exact ⟨t, hSsub ht, htr⟩
      have hnsub : ¬ recur ⊆ fin :=
        innerLoop_false_not_subset tr recur _ _ _ _
          (by simpa [Finset.subset_empty] using hrec) hp
      obtain ⟨x, hxr, hxf⟩ := Finset.not_subset.mp hnsub
      have hss : recur ∩ fin ⊂ recur :=
        (Finset.ssubset_iff_of_subset Finset.inter_subset_left).mpr
          ⟨x, hxr, fun hmem => hxf (Finset.mem_inter.mp hmem).2⟩
      exact ih _ S hSne hSfin hScyc
        (lt_of_lt_of_le (Finset.card_lt_card hss) (Nat.lt_succ_iff.mp hcard))

/-! Behaviour of the loop of `compute_recheability`. -/

theorem reachLoop_empty_frontier (tr : α → α → Bool) (fuel : Nat)
    (reach : Finset α) (h : 1 ≤ fuel) :
    reachLoop tr fuel reach ∅ = some reach := by
  cases fuel with
  | zero => exact absurd h (by simp)
  | succ n => simp [reachLoop]

theorem reachLoop_isSome (tr : α → α → Bool) :
    ∀ (fuel : Nat) (reach nw : Finset α),
      (Finset.univ \ reach).card + 2 ≤ fuel →
      (reachLoop tr fuel reach nw).isSome := by
  intro fuel
  induction fuel with
  | zero => intro reach nw h; exact absurd h (by omega)
  | succ n ih =>
    intro reach nw hcard
    simp only [reachLoop]
    by_cases hnw : nw = ∅
    · simp [hnw]
    · rw [if_neg hnw]
      by_cases h2 : post tr nw \ reach = ∅
      · rw [h2, Finset.union_empty]
        rw [reachLoop_empty_frontier tr n reach (by omega)]
        simp
      · show (reachLoop tr n (reach ∪ (post tr nw \ reach)) (post tr nw \ reach)).isSome
        apply ih
        obtain ⟨a, ha⟩ := Finset.nonempty_iff_ne_empty.mpr h2
        have hanotin : a ∉ reach := (Finset.mem_sdiff.mp ha).2
        have hsubset : Finset.univ \ (reach ∪ (post tr nw \ reach)) ⊆
            Finset.univ \ reach :=
          Finset.sdiff_subset_sdiff (Finset.Subset.refl _)
            Finset.subset_union_left
        have hss : Finset.univ \ (reach ∪ (post tr nw \ reach)) ⊂
            Finset.univ \ reach := by
          refine (Finset.ssubset_iff_of_subset hsubset).mpr
            ⟨a, Finset.mem_sdiff.mpr ⟨Finset.mem_univ a, hanotin⟩, ?_⟩
          intro hmem
          exact (Finset.mem_sdiff.mp hmem).2 (Finset.mem_union_right _ ha)
        have := Finset.card_lt_card hss
        omega

theorem reachLoop_props (tr : α → α → Bool) (P : α → Prop)
    (Pstep : ∀ a b, P a → tr a b = true → P b) :
    ∀ (fuel : Nat) (reach nw R : Finset α),
      reachLoop tr fuel reach nw = some R →
      nw ⊆ reach → (∀ x ∈ reach, P x) →
      post tr reach ⊆ reach ∪ post tr nw →
      reach ⊆ R ∧ (∀ x ∈ R, P x) ∧ post tr R ⊆ R := by
  intro fuel
  induction fuel with
  | zero => intro reach nw R h; simp [reachLoop] at h
  | succ n ih =>
    intro reach nw R h hnwsub hP hpost
    simp only [reachLoop] at h
    by_cases hnw : nw = ∅
    · rw [if_pos hnw] at h
      obtain h2 := Option.some.injEq .. ▸ h
      subst h2
      refine ⟨Finset.Subset.refl _, hP, ?_⟩
      rw [hnw, post_empty, Finset.union_empty] at hpost
      exact hpost
    · rw [if_neg hnw] at h
      replace h : reachLoop tr n (reach ∪ (post tr nw \ reach))
          (post tr nw \ reach) = some R := h
      have hP2 : ∀ x ∈ reach ∪ (post tr nw \ reach), P x := by
        intro x hx
        rcases Finset.mem_union.mp hx with hx | hx
        · exact hP x hx
        · obtain ⟨a, ha, hstep⟩ := mem_post.mp (Finset.mem_sdiff.mp hx).1
          exact Pstep a x (hP a (hnwsub ha)) hstep
      have hpost2 : post tr (reach ∪ (post tr nw \ reach)) ⊆
          (reach ∪ (post tr nw \ reach)) ∪ post tr (post tr nw \ reach) := by
        rw [post_union]
        apply Finset.union_subset
        · refine hpost.trans ?_
          apply Finset.union_subset
          · exact Finset.subset_union_left.trans Finset.subset_union_left
          · intro x hx
            by_cases hmem : x ∈ reach
            · exact Finset.mem_union_left _ (Finset.mem_union_left _ hmem)
            · exact Finset.mem_union_left _ (Finset.mem_union_right _
                (Finset.mem_sdiff.mpr ⟨hx, hmem⟩))
        · exact Finset.subset_union_right
      obtain ⟨hsub, hPR, hclosed⟩ := ih _ _ _ h Finset.subset_union_right hP2 hpost2
      exact ⟨Finset.subset_union_left.trans hsub, hPR, hclosed⟩

/-- Reduction of a successful `Except` bind, for unfolding the `do` blocks. -/
theorem except_bind_ok {ε A B : Type} (a : A) (f : A → Except ε B) :
    (Except.ok a : Except ε A) >>= f = f a := rfl

/-- C1: the claim says `check_react_spec` returns `None` when `parse_react`
does not match; in the code the tuple unpacking on line 136 raises
`TypeError` on every such input instead, so the claim fails on the code
(the dead lines 152-153 and the spec show the intended `return None`). -/
theorem claim_C1 (tr : α → α → Bool) (init : Finset α)
    (e : SpecTree → Finset α) (ltl : Bool) (t : SpecTree)
    (h : parse_react t = .ok none) :
    check_react_spec tr init e ltl t = .error .typeError := by
  simp [check_react_spec, h, except_bind_ok]

theorem claim_C1_witness :
    check_react_spec trSelf ({0} : Finset (Fin 1)) eSelf true atomP =
      .error .typeError :=
  claim_C1 trSelf {0} eSelf true atomP rfl

/-- C2: the claim says `check_persistently` iterates
`recur := recur ∩ pre(recur)` to a fixpoint and tests the result for
emptiness; on the self-loop model (where the claimed algorithm returns
true) the code instead raises `NameError` on the unbound name `pre`,
performing no fixpoint iteration at all. -/
theorem claim_C2 :
    check_persistently trCyc eCyc Finset.univ atomP = .error .nameError := rfl

/-- C3: the claim says `check_persistently` is total and never references an
unbound state-set variable; in fact, whenever `reach` intersects the
evaluated formula, the branch taken executes
`for s in fsm.pick_all_states(pre)` with `pre` unbound and raises
`NameError`. -/
theorem claim_C3 (tr : α → α → Bool) (e : SpecTree → Finset α)
    (reach : Finset α) (spec : SpecTree)
    (h : (reach ∩ e spec).Nonempty) :
    check_persistently tr e reach spec = .error .nameError := by
  simp only [check_persistently, spec_to_bdd]
  rw [if_neg (not_not_intro h)]

theorem claim_C3_witness :
    check_persistently trSelf eSelf {0} atomP = .error .nameError :=
  claim_C3 trSelf eSelf {0} atomP (by decide)

/-- C4: the claim says `parse_react` yields the no-match result whenever
either side fails to be a `G F`-over-boolean formula; in the code a side of
the wrong shape makes `check_GF_formula` return Python `False`, which is not
`== None`, so `parse_react` returns the pair `(False, p)` on
`Context(_, Implies(p U q, G F p))` instead of `None`. -/
theorem claim_C4 :
    parse_react c4Tree = .ok (some (GFRes.pyFalse, GFRes.formula atomP)) := rfl

/-- C5: the claim says the two failure causes of `check_GF_formula` collapse
to one uniform no-match value; in the code a wrong-shaped node returns
Python `False` while a non-boolean inner formula returns `None`, two
distinct values that `parse_react` treats differently. -/
theorem claim_C5 :
    check_GF_formula fgTree = .ok GFRes.pyFalse ∧
    check_GF_formula gfNonBool = .ok GFRes.pyNone ∧
    GFRes.pyFalse ≠ GFRes.pyNone :=
  ⟨rfl, rfl, by decide⟩

/-- C6: `check_liveness` returns true exactly when some non-empty set of
φ-states inside `reach` exists whose every member can reach the set again in
one or more steps; and it returns false on the acyclic three-state model
whose only φ-state cannot return to itself. -/
theorem claim_C6 :
    (∀ (α : Type) [DecidableEq α] [Fintype α] (tr : α → α → Bool)
        (e : SpecTree → Finset α) (reach : Finset α) (spec : SpecTree),
        check_liveness tr e reach spec = some true ↔
          ∃ S : Finset α, S.Nonempty ∧ S ⊆ reach ∩ e spec ∧
            ∀ s ∈ S, ∃ t ∈ S, Relation.TransGen (step tr) s t) ∧
    check_liveness trAcyc eAcyc Finset.univ atomP = some false := by
  constructor
  · intro α _ _ tr e reach spec
    constructor
    · intro h
      exact outerLoop_sound tr _ _ h
    · rintro ⟨S, hne, hsub, hcyc⟩
      apply outerLoop_complete tr _ _ S hne hsub hcyc
      exact Nat.lt_succ_of_le (Finset.card_le_univ _)
  · decide

theorem claim_C6_witness :
    check_liveness trCyc eCyc Finset.univ atomP = some true := by
  refine (claim_C6.1 (Fin 2) trCyc eCyc Finset.univ atomP).mpr
    ⟨{1}, ?_, ?_, ?_⟩
  · decide
  · decide
  · intro s hs
    have hs1 : s = 1 := Finset.mem_singleton.mp hs
    subst hs1
    exact ⟨1, Finset.mem_singleton.mpr rfl,
      Relation.TransGen.single (show trCyc 1 1 = true by decide)⟩

/-- C7: `compute_recheability` returns exactly the states reachable from the
initial states, and `{s0, s1}` on the two-state cycle with `init = {s0}`. -/
theorem claim_C7 :
    (∀ (α : Type) [DecidableEq α] [Fintype α] (tr : α → α → Bool)
        (init : Finset α),
      ∃ R : Finset α, compute_recheability tr init = some R ∧
        ∀ t : α, t ∈ R ↔ ∃ s ∈ init, Relation.ReflTransGen (step tr) s t) ∧
    compute_recheability trPair ({0} : Finset (Fin 2)) = some {0, 1} := by
  constructor
  · intro α _ _ tr init
    have hsome : (reachLoop tr (Fintype.card α + 2) init init).isSome := by
      apply reachLoop_isSome
      have := Finset.card_le_univ (Finset.univ \ init : Finset α)
      omega
    obtain ⟨R, hR⟩ := Option.isSome_iff_exists.mp hsome
    refine ⟨R, ?_, ?_⟩
    · exact hR
    · obtain ⟨hsub, hPR, hclosed⟩ :=
        reachLoop_props tr
          (fun t => ∃ s ∈ init, Relation.ReflTransGen (step tr) s t)
          (fun a b ha hstep => by
            obtain ⟨s, hs, h⟩ := ha
            exact ⟨s, hs, h.tail hstep⟩)
          _ _ _ _ hR (Finset.Subset.refl _)
          (fun x hx => ⟨x, hx, Relation.ReflTransGen.refl⟩)
          Finset.subset_union_right
      intro t
      constructor
      · exact hPR t
      · rintro ⟨s, hs, hrt⟩
        induction hrt with
        | refl => exact hsub hs
        | tail h1 h2 ih => exact hclosed (mem_post.mpr ⟨_, ih, h2⟩)
  · decide

theorem claim_C7_witness :
    ∃ R : Finset (Fin 2),
      compute_recheability trCyc ({0} : Finset (Fin 2)) = some R ∧
        ∀ t : Fin 2, t ∈ R ↔
          ∃ s ∈ ({0} : Finset (Fin 2)), Relation.ReflTransGen (step trCyc) s t :=
  claim_C7.1 (Fin 2) trCyc {0}

/-- C8: the claim says the matched case composes the two checkers into a
Holds/Violated verdict, Holds on the fully-connected two-state model for
`GF p -> GF q`; the code instead dies with the `NameError` raised inside
`check_persistently`, because `reach` intersects the states of `¬q`. -/
theorem claim_C8 :
    check_react_spec trPair ({0} : Finset (Fin 2)) e8 true gfTree =
      .error .nameError := rfl

/-- C9: the outer loop of `check_liveness` shrinks `recur` strictly whenever
an iteration does not return, and the loop reaches a decision within
`|recur| + 1` checks of the loop guard; hence `check_liveness`, which runs
it with fuel `|states| + 1`, always returns a value. -/
theorem claim_C9 :
    (∀ (α : Type) [DecidableEq α] [Fintype α] (tr : α → α → Bool)
        (recur preR : Finset α) (fuel : Nat), recur ≠ ∅ →
        innerLoop tr recur fuel ∅ (pre tr recur) = some (false, preR) →
        recur ∩ preR ⊆ recur ∧ recur ∩ preR ⊂ recur) ∧
    (∀ (α : Type) [DecidableEq α] [Fintype α] (tr : α → α → Bool)
        (recur : Finset α) (fuel : Nat), recur.card < fuel →
        (outerLoop tr fuel recur).isSome) ∧
    (∀ (α : Type) [DecidableEq α] [Fintype α] (tr : α → α → Bool)
        (e : SpecTree → Finset α) (reach : Finset α) (spec : SpecTree),
        (check_liveness tr e reach spec).isSome) := by
  refine ⟨?_, ?_, ?_⟩
  · intro α _ _ tr recur preR fuel hne hinner
    have hnsub : ¬ recur ⊆ preR :=
      innerLoop_false_not_subset tr recur _ _ _ _
        (by simpa [Finset.subset_empty] using hne) hinner
    obtain ⟨x, hxr, hxf⟩ := Finset.not_subset.mp hnsub
    exact ⟨Finset.inter_subset_left,
      (Finset.ssubset_iff_of_subset Finset.inter_subset_left).mpr
        ⟨x, hxr, fun hmem => hxf (Finset.mem_inter.mp hmem).2⟩⟩
  · intro α _ _ tr recur fuel h
    exact outerLoop_isSome tr fuel recur h
  · intro α _ _ tr e reach spec
    exact outerLoop_isSome tr _ _ (Nat.lt_succ_of_le (Finset.card_le_univ _))

theorem claim_C9_witness :
    (outerLoop trCyc 3 ({1} : Finset (Fin 2))).isSome :=
  claim_C9.2.1 (Fin 2) trCyc {1} 3 (by decide)

/-- C10: `is_boolean_formula` accepts every tree built from
Atom/Number/Dot/True/False leaves, comparisons, `NOT` and binary boolean
operators, in particular a bare `NUMBER` or `DOT` leaf standing alone. -/
theorem claim_C10 :
    (∀ s : SpecTree, BoolComboTree s → is_boolean_formula s = .ok true) ∧
    is_boolean_formula (.mk .NUMBER 0 .nil .nil) = .ok true ∧
    is_boolean_formula (.mk .DOT 0 atomP atomQ) = .ok true := by
  refine ⟨?_, rfl, rfl⟩
  intro s h
  induction h with
  | atom i => rfl
  | number i => rfl
  | dot i a b => rfl
  | tru i => rfl
  | fls i => rfl
  | cmp t i a b ht => fin_cases ht <;> rfl
  | notNode i a _ ih =>
    simpa [is_boolean_formula, basicTypes, booleanOp] using ih
  | binop t i a b ht _ _ iha ihb =>
    fin_cases ht <;>
      simp [is_boolean_formula, basicTypes, booleanOp, iha, ihb, except_bind_ok]

theorem claim_C10_witness :
    is_boolean_formula
      (.mk .AND 0 (.mk .NUMBER 3 .nil .nil) (.mk .DOT 4 atomP atomQ)) =
      .ok true :=
  claim_C10.1 _
    (BoolComboTree.binop .AND 0 _ _ (by decide)
      (BoolComboTree.number 3) (BoolComboTree.dot 4 atomP atomQ))
